import Mathlib

/-!
Verification of the samosa CLI's command-registration, aliasing, plugin-loading
and git-backup-safety layers, as a shallow embedding in Lean 4.

The embedding mirrors, definition by definition:
  * `src/samosa/utils.py`   — class `AliasedGroup` (alias table, lookup, help rows);
  * `src/samosa/plugins.py` — `ProjectContext.config`, `ProjectCommandLoader`
    (`find_project_root`, `load_commands`, `create_local_group`) and the
    bootstrap `init` command;
  * `src/samosa/tasks/git.py` — the deletion loop of `backup_delete` in
    `--mode all`.

Python dicts are modelled as association lists with insertion-order-preserving
update (`dictSet`) and first-match lookup (`dictGet`); Python `sorted` on
strings is modelled by an insertion sort over the lexicographic code-point
order (`lexLe`); the filesystem is modelled as a predicate on paths
(for read-only discovery) or as an explicit record of directories and files
(for the bootstrap command); a loaded Python module is modelled by its observable
outcome (the command objects it contributes, or the exception it raises).
-/

namespace Samosa

/-- A path, as its list of components from the filesystem root
(`["p", "sub"]` stands for `/p/sub`; `[]` is the root). -/
abbrev Path := List String

/-- Insertion-order-preserving dictionary update, the semantics of
`d[k] = v` on a Python dict: an existing key keeps its position and gets the
new value, a new key is appended. -/
def dictSet {κ α : Type} [DecidableEq κ] (k : κ) (v : α) : List (κ × α) → List (κ × α)
  | [] => [(k, v)]
  | (k', v') :: rest => if k' = k then (k', v) :: rest else (k', v') :: dictSet k v rest

/-- Dictionary lookup, the semantics of `d.get(k)` / `d[k]` on a Python dict
(first matching key wins; keys are unique when the list is built by `dictSet`). -/
def dictGet {κ α : Type} [DecidableEq κ] (k : κ) : List (κ × α) → Option α
  | [] => none
  | (k', v) :: rest => if k' = k then some v else dictGet k rest

/-- A Click command object, reduced to the attributes the claims observe:
an identity (so "identical command node" is expressible), its `hidden` flag
and its short help string. -/
structure Cmd where
  id : Nat
  hidden : Bool := false
  shortHelp : String := ""
deriving DecidableEq, Repr

/-- The state of a `samosa.utils.AliasedGroup`: the inherited Click
`self.commands` dict (canonical name → command, insertion ordered) and the
`self._aliases` dict (alias → canonical name). -/
structure AliasedGroup where
  commands : List (String × Cmd) := []
  aliases : List (String × String) := []
deriving DecidableEq, Repr

/-- A freshly constructed `AliasedGroup` (both dicts empty). -/
def emptyGroup : AliasedGroup := ⟨[], []⟩

/-- `click.Group.add_command(cmd, name)`: `self.commands[name] = cmd`. -/
def addCommand (g : AliasedGroup) (cmd : Cmd) (name : String) : AliasedGroup :=
  { g with commands := dictSet name cmd g.commands }

/-- `AliasedGroup.add_command_with_aliases(cmd, name, aliases)`:
adds the command, then sets `self._aliases[alias] = name` for each alias. -/
def addCommandWithAliases (g : AliasedGroup) (cmd : Cmd) (name : String)
    (aliases : List String) : AliasedGroup :=
  let g' := addCommand g cmd name
  { g' with aliases := aliases.foldl (fun d a => dictSet a name d) g'.aliases }

/-- `AliasedGroup.get_command(ctx, cmd_name)`: if the token is an alias key,
substitute the canonical name first; then look up the commands dict. -/
def getCommand (g : AliasedGroup) (cmdName : String) : Option Cmd :=
  match dictGet cmdName g.aliases with
  | some canonical => dictGet canonical g.commands
  | none => dictGet cmdName g.commands

/-- One call to `add_command_with_aliases`, as data: the command object,
its canonical name, and its alias list. -/
structure Registration where
  cmd : Cmd
  name : String
  aliases : List String
deriving DecidableEq, Repr

/-- Replays one registration on a group. -/
def applyRegistration (g : AliasedGroup) (r : Registration) : AliasedGroup :=
  addCommandWithAliases g r.cmd r.name r.aliases

/-- The group obtained by replaying a sequence of `add_command_with_aliases`
calls on a fresh `AliasedGroup`. -/
def buildGroup (regs : List Registration) : AliasedGroup :=
  regs.foldl applyRegistration emptyGroup

/-! ### Basic dictionary lemmas -/

theorem dictGet_dictSet_self {κ α : Type} [DecidableEq κ] (k : κ) (v : α)
    (d : List (κ × α)) : dictGet k (dictSet k v d) = some v := by
  induction d with
  | nil => simp [dictSet, dictGet]
  | cons p rest ih =>
    obtain ⟨k', v'⟩ := p
    by_cases h : k' = k
    · simp [dictSet, dictGet, h]
    · simp [dictSet, dictGet, h, ih]

theorem dictGet_dictSet_ne {κ α : Type} [DecidableEq κ] {k k' : κ} (v : α)
    (d : List (κ × α)) (hne : k' ≠ k) :
    dictGet k' (dictSet k v d) = dictGet k' d := by
  induction d with
  | nil => simp [dictSet, dictGet, Ne.symm hne]
  | cons p rest ih =>
    obtain ⟨k₀, v₀⟩ := p
    by_cases h : k₀ = k
    · subst h
      simp [dictSet, dictGet, Ne.symm hne]
    · simp [dictSet, dictGet, h, ih]

theorem dictGet_eq_none_iff {κ α : Type} [DecidableEq κ] (k : κ)
    (d : List (κ × α)) : dictGet k d = none ↔ k ∉ d.map Prod.fst := by
  induction d with
  | nil => simp [dictGet]
  | cons p rest ih =>
    obtain ⟨k', v⟩ := p
    by_cases h : k' = k
    · subst h
      simp [dictGet]
    · simp [dictGet, h, ih, Ne.symm h]

/-- Setting every alias of a list to one target: lookup afterwards. -/
theorem dictGet_foldl_dictSet_const {α : Type} [DecidableEq α] {β : Type}
    (as : List α) (n : β) (t : List (α × β)) (a : α) :
    dictGet a (as.foldl (fun d x => dictSet x n d) t) =
      if a ∈ as then some n else dictGet a t := by
  induction as generalizing t with
  | nil => simp
  | cons x rest ih =>
    by_cases hmem : a ∈ rest
    · simp [List.foldl_cons, ih, hmem]
    · by_cases hx : a = x
      · subst hx
        simp [List.foldl_cons, ih, hmem, dictGet_dictSet_self]
      · simp [List.foldl_cons, ih, hmem, hx, dictGet_dictSet_ne _ _ hx]

/-! ### Alias-table lemmas for replayed registration sequences -/

theorem aliases_applyRegistration (g : AliasedGroup) (r : Registration) (a : String) :
    dictGet a (applyRegistration g r).aliases =
      if a ∈ r.aliases then some r.name else dictGet a g.aliases := by
  simp only [applyRegistration, addCommandWithAliases, addCommand]
  exact dictGet_foldl_dictSet_const r.aliases r.name g.aliases a

theorem aliases_foldl_of_not_mentioned (a : String) (regs : List Registration)
    (g : AliasedGroup) (h : ∀ r' ∈ regs, a ∉ r'.aliases) :
    dictGet a (regs.foldl applyRegistration g).aliases = dictGet a g.aliases := by
  induction regs generalizing g with
  | nil => rfl
  | cons r rest ih =>
    have hr : a ∉ r.aliases := h r (by simp)
    have hrest : ∀ r' ∈ rest, a ∉ r'.aliases := fun r' hr' => h r' (by simp [hr'])
    rw [List.foldl_cons, ih _ hrest, aliases_applyRegistration, if_neg hr]

theorem aliases_buildGroup_of_registered (l₁ l₂ : List Registration)
    (r : Registration) (a : String) (ha : a ∈ r.aliases)
    (hlater : ∀ r' ∈ l₂, a ∉ r'.aliases) :
    dictGet a (buildGroup (l₁ ++ r :: l₂)).aliases = some r.name := by
  unfold buildGroup
  rw [List.foldl_append, List.foldl_cons,
    aliases_foldl_of_not_mentioned a l₂ _ hlater, aliases_applyRegistration, if_pos ha]

theorem aliases_buildGroup_of_never_aliased (regs : List Registration) (n : String)
    (h : ∀ r' ∈ regs, n ∉ r'.aliases) :
    dictGet n (buildGroup regs).aliases = none := by
  unfold buildGroup
  rw [aliases_foldl_of_not_mentioned n regs emptyGroup h]
  rfl

/-- Concrete command objects used by the concrete groups below. -/
def cmdA : Cmd := ⟨1, false, ""⟩

/-- Second concrete command object. -/
def cmdB : Cmd := ⟨2, false, ""⟩

/-- C1.
For a pair `(name, aliases)` registered by `add_command_with_aliases`, and
an alias in that list, `get_command` on the alias and on the canonical name
return the identical command node — provided no later registration re-binds
that alias to a different canonical name, and the canonical name itself is
never used as an alias key (without these provisos the claim fails, see the
counterexample). -/
theorem getCommand_alias_eq_getCommand_name (l₁ l₂ : List Registration)
    (r : Registration) (a : String) (ha : a ∈ r.aliases)
    (hlater : ∀ r' ∈ l₂, a ∉ r'.aliases)
    (hname : ∀ r' ∈ l₁ ++ r :: l₂, r.name ∉ r'.aliases) :
    getCommand (buildGroup (l₁ ++ r :: l₂)) a =
      getCommand (buildGroup (l₁ ++ r :: l₂)) r.name := by
  have h₁ := aliases_buildGroup_of_registered l₁ l₂ r a ha hlater
  have h₂ := aliases_buildGroup_of_never_aliased (l₁ ++ r :: l₂) r.name hname
  unfold getCommand
  rw [h₁, h₂]

/-- C1, witness: one registration `(cmdA, "a", ["x"])`; the alias and the
canonical name resolve identically. -/
theorem getCommand_alias_eq_getCommand_name_witness :
    getCommand (buildGroup [⟨cmdA, "a", ["x"]⟩]) "x" =
      getCommand (buildGroup [⟨cmdA, "a", ["x"]⟩]) "a" := by
  have h := getCommand_alias_eq_getCommand_name [] [] ⟨cmdA, "a", ["x"]⟩ "x"
    (by decide) (by simp) (by decide)
  simpa using h

/-- C1, counterexample to the unrestricted claim: register `(cmdA, "a", ["x"])`
and then `(cmdB, "b", ["x"])`.  The pair `("a", ["x"])` was registered with
alias `"x"`, yet `get_command` on `"x"` yields `cmdB` while `get_command` on
`"a"` yields `cmdA`: the alias dict is last-write-wins, so the later
registration re-bound `"x"`. -/
theorem getCommand_alias_rebinding_counterexample :
    (⟨cmdA, "a", ["x"]⟩ : Registration) ∈
        [(⟨cmdA, "a", ["x"]⟩ : Registration), ⟨cmdB, "b", ["x"]⟩] ∧
      "x" ∈ [ "x" ] ∧
      getCommand (buildGroup [⟨cmdA, "a", ["x"]⟩, ⟨cmdB, "b", ["x"]⟩]) "x" = some cmdB ∧
      getCommand (buildGroup [⟨cmdA, "a", ["x"]⟩, ⟨cmdB, "b", ["x"]⟩]) "a" = some cmdA ∧
      getCommand (buildGroup [⟨cmdA, "a", ["x"]⟩, ⟨cmdB, "b", ["x"]⟩]) "x" ≠
        getCommand (buildGroup [⟨cmdA, "a", ["x"]⟩, ⟨cmdB, "b", ["x"]⟩]) "a" := by
  decide

/-! ### Lexicographic string sorting (the model of Python `sorted`)

Python sorts strings lexicographically by code point.  Lean's built-in
`String` order does not reduce in the kernel, so the comparison is defined
directly on the character lists. -/

/-- Lexicographic "less or equal" on character lists, by code point. -/
def lexLeChars : List Char → List Char → Bool
  | [], _ => true
  | _ :: _, [] => false
  | a :: as, b :: bs =>
    if a.toNat < b.toNat then true
    else if b.toNat < a.toNat then false
    else lexLeChars as bs

/-- Lexicographic "less or equal" on strings, by code point
(the order Python `sorted` uses on `str`). -/
def lexLe (a b : String) : Bool := lexLeChars a.data b.data

theorem lexLeChars_total (as bs : List Char) :
    lexLeChars as bs = true ∨ lexLeChars bs as = true := by
  induction as generalizing bs with
  | nil => left; rfl
  | cons a as ih =>
    cases bs with
    | nil => right; rfl
    | cons b bs =>
      rcases Nat.lt_trichotomy a.toNat b.toNat with h | h | h
      · left; simp [lexLeChars, h]
      · have h' : ¬ a.toNat < b.toNat := by omega
        have h'' : ¬ b.toNat < a.toNat := by omega
        rcases ih bs with hc | hc
        · left; simp [lexLeChars, h', h'', hc]
        · right; simp [lexLeChars, h', h'', hc]
      · right; simp [lexLeChars, h]

theorem lexLe_total (a b : String) : lexLe a b = true ∨ lexLe b a = true :=
  lexLeChars_total a.data b.data

/-- Sorted insertion into an already-sorted list. -/
def insertSorted (s : String) : List String → List String
  | [] => [s]
  | x :: xs => if lexLe s x then s :: x :: xs else x :: insertSorted s xs

/-- Insertion sort, the model of Python `sorted` on a list of strings. -/
def sortStrings (l : List String) : List String := l.foldr insertSorted []

theorem insertSorted_perm (s : String) (l : List String) :
    (insertSorted s l).Perm (s :: l) := by
  induction l with
  | nil => exact List.Perm.refl _
  | cons x xs ih =>
    by_cases h : lexLe s x
    · simp [insertSorted, h]
    · simp only [insertSorted, h, Bool.false_eq_true, if_false]
      exact (ih.cons x).trans (List.Perm.swap s x xs)

theorem sortStrings_perm (l : List String) : (sortStrings l).Perm l := by
  induction l with
  | nil => exact List.Perm.refl _
  | cons x xs ih =>
    exact (insertSorted_perm x (sortStrings xs)).trans (ih.cons x)

theorem mem_sortStrings {s : String} {l : List String} :
    s ∈ sortStrings l ↔ s ∈ l :=
  (sortStrings_perm l).mem_iff

theorem nodup_sortStrings {l : List String} (h : l.Nodup) :
    (sortStrings l).Nodup :=
  (sortStrings_perm l).nodup_iff.mpr h

theorem chain'_cons_insertSorted (s : String) (l : List String) :
    ∀ x : String, lexLe x s = true →
      (x :: l).Chain' (fun a b => lexLe a b = true) →
      (x :: insertSorted s l).Chain' (fun a b => lexLe a b = true) := by
  induction l with
  | nil =>
    intro x hxs _
    simp [insertSorted, List.chain'_cons, hxs]
  | cons z zs ih =>
    intro x hxs h
    rw [List.chain'_cons] at h
    by_cases hsz : lexLe s z
    · simp only [insertSorted, hsz, if_true]
      rw [List.chain'_cons, List.chain'_cons]
      exact ⟨hxs, hsz, h.2⟩
    · simp only [insertSorted, hsz, Bool.false_eq_true, if_false]
      rw [List.chain'_cons]
      have hzs : lexLe z s = true := (lexLe_total s z).resolve_left hsz
      exact ⟨h.1, ih z hzs h.2⟩

theorem chain'_insertSorted (s : String) (l : List String)
    (h : l.Chain' (fun a b => lexLe a b = true)) :
    (insertSorted s l).Chain' (fun a b => lexLe a b = true) := by
  cases l with
  | nil => simp [insertSorted]
  | cons x xs =>
    by_cases hle : lexLe s x
    · simp only [insertSorted, hle, if_true]
      rw [List.chain'_cons]
      exact ⟨hle, h⟩
    · simp only [insertSorted, hle, Bool.false_eq_true, if_false]
      exact chain'_cons_insertSorted s xs x ((lexLe_total s x).resolve_left hle) h

/-- The output of `sortStrings` is lexicographically ordered (adjacent pairs). -/
theorem chain'_sortStrings (l : List String) :
    (sortStrings l).Chain' (fun a b => lexLe a b = true) := by
  induction l with
  | nil => simp [sortStrings]
  | cons x xs ih => exact chain'_insertSorted x (sortStrings xs) ih

/-! ### Help rendering: `AliasedGroup.format_commands` -/

/-- `click.Group.list_commands(ctx)` (inherited, also what
`AliasedGroup.list_commands` returns): `sorted(self.commands)`, the sorted
canonical names, aliases never included. -/
def listCommands (g : AliasedGroup) : List String :=
  sortStrings (g.commands.map Prod.fst)

/-- The alias comprehension of `format_commands`:
`[alias for alias, target in self._aliases.items() if target == subcommand]`. -/
def aliasesFor (g : AliasedGroup) (name : String) : List String :=
  (g.aliases.filter (fun p => p.2 == name)).map Prod.fst

/-- The display name built by `format_commands`:
`f"{subcommand} ({', '.join(sorted(aliases))})"` when the command has aliases,
else the bare canonical name. -/
def displayName (g : AliasedGroup) (sub : String) : String :=
  if aliasesFor g sub = [] then sub
  else sub ++ " (" ++ String.intercalate ", " (sortStrings (aliasesFor g sub)) ++ ")"

/-- The `for subcommand in self.list_commands(ctx)` loop of `format_commands`,
with its `seen` set (modelled as a list) threaded through:  a subcommand
already seen is skipped; a missing or hidden command is skipped; otherwise one
`(display name, short help)` row is appended and the subcommand together with
its aliases is added to `seen`. -/
def formatCommandsLoop (g : AliasedGroup) (seen : List String) :
    List String → List (String × String)
  | [] => []
  | sub :: rest =>
    if sub ∈ seen then formatCommandsLoop g seen rest
    else
      match getCommand g sub with
      | none => formatCommandsLoop g seen rest
      | some cmd =>
        if cmd.hidden then formatCommandsLoop g seen rest
        else
          (displayName g sub, cmd.shortHelp) ::
            formatCommandsLoop g (sub :: (aliasesFor g sub ++ seen)) rest

/-- `AliasedGroup.format_commands`: the list of `(display name, short help)`
rows handed to `formatter.write_dl`. -/
def formatCommands (g : AliasedGroup) : List (String × String) :=
  formatCommandsLoop g [] (listCommands g)

/-- The rendered help text: one line per row.  (Click's `HelpFormatter`
pads columns; the exact padding is irrelevant to the substring claims, and is
abstracted as a two-space separator.) -/
def renderHelp (g : AliasedGroup) : String :=
  String.intercalate "\n" ((formatCommands g).map (fun r => r.1 ++ "  " ++ r.2))

/-- The row `format_commands` produces for one canonical subcommand, when no
alias key collides with a canonical name: `none` for a missing or hidden
command, otherwise the `(display name, short help)` pair. -/
def rowFor (g : AliasedGroup) (sub : String) : Option (String × String) :=
  match dictGet sub g.commands with
  | none => none
  | some cmd => if cmd.hidden then none else some (displayName g sub, cmd.shortHelp)

/-- Does the character list start with the pattern? -/
def beginsWith : List Char → List Char → Bool
  | [], _ => true
  | _ :: _, [] => false
  | p :: ps, c :: cs => p == c && beginsWith ps cs

/-- Does the character list contain the pattern as a contiguous run? -/
def charsContain (pat : List Char) : List Char → Bool
  | [] => pat.isEmpty
  | c :: rest => beginsWith pat (c :: rest) || charsContain pat rest

/-- Substring test: does `s` contain `pat`? -/
def strContains (s pat : String) : Bool := charsContain pat.data s.data

/-! ### Lemmas about `format_commands` -/

theorem dictGet_eq_some_mem {κ α : Type} [DecidableEq κ] {k : κ} {v : α}
    {d : List (κ × α)} (h : dictGet k d = some v) : k ∈ d.map Prod.fst := by
  by_contra hmem
  rw [(dictGet_eq_none_iff k d).mpr hmem] at h
  cases h

theorem dictGet_ne_none_of_mem {κ α : Type} [DecidableEq κ] {k : κ}
    {d : List (κ × α)} (h : k ∈ d.map Prod.fst) : dictGet k d ≠ none :=
  fun hn => (dictGet_eq_none_iff k d).mp hn h

theorem mem_aliasesFor_mem_keys {g : AliasedGroup} {s n : String}
    (h : s ∈ aliasesFor g n) : s ∈ g.aliases.map Prod.fst := by
  unfold aliasesFor at h
  rcases List.mem_map.mp h with ⟨p, hp, hps⟩
  exact hps ▸ List.mem_map.mpr ⟨p, List.mem_of_mem_filter hp, rfl⟩

/-- When no alias key is also a canonical name, `get_command` on a canonical
name is a plain commands-dict lookup. -/
theorem getCommand_eq_dictGet (g : AliasedGroup)
    (hsep : ∀ a ∈ g.aliases.map Prod.fst, dictGet a g.commands = none)
    {sub : String} (hmem : sub ∈ g.commands.map Prod.fst) :
    getCommand g sub = dictGet sub g.commands := by
  unfold getCommand
  cases h : dictGet sub g.aliases with
  | none => rfl
  | some n =>
    exact absurd (hsep sub (dictGet_eq_some_mem h)) (dictGet_ne_none_of_mem hmem)

theorem formatCommandsLoop_eq_filterMap (g : AliasedGroup)
    (hsep : ∀ a ∈ g.aliases.map Prod.fst, dictGet a g.commands = none) :
    ∀ subs seen, subs.Nodup →
      (∀ s ∈ subs, s ∈ g.commands.map Prod.fst) →
      (∀ s ∈ subs, s ∉ seen) →
      formatCommandsLoop g seen subs = subs.filterMap (rowFor g) := by
  intro subs
  induction subs with
  | nil => intro seen _ _ _; rfl
  | cons sub rest ih =>
    intro seen hnd hkeys hseen
    obtain ⟨hsubrest, hndrest⟩ := List.nodup_cons.mp hnd
    have hsub_keys : sub ∈ g.commands.map Prod.fst := hkeys sub (by simp)
    have hsub_seen : sub ∉ seen := hseen sub (by simp)
    have hkeys' : ∀ s ∈ rest, s ∈ g.commands.map Prod.fst :=
      fun s hs => hkeys s (by simp [hs])
    have hseen' : ∀ s ∈ rest, s ∉ seen := fun s hs => hseen s (by simp [hs])
    have hget : getCommand g sub = dictGet sub g.commands :=
      getCommand_eq_dictGet g hsep hsub_keys
    cases hcmd : dictGet sub g.commands with
    | none => exact absurd hcmd (dictGet_ne_none_of_mem hsub_keys)
    | some cmd =>
      by_cases hh : cmd.hidden
      · simp only [formatCommandsLoop, if_neg hsub_seen, hget, hcmd, hh, if_true,
          List.filterMap_cons, rowFor]
        exact ih seen hndrest hkeys' hseen'
      · have hseen₂ : ∀ s ∈ rest, s ∉ sub :: (aliasesFor g sub ++ seen) := by
          intro s hs
          simp only [List.mem_cons, List.mem_append]
          push_neg
          refine ⟨?_, ?_, hseen' s hs⟩
          · intro heq
            exact hsubrest (heq ▸ hs)
          · intro hal
            exact dictGet_ne_none_of_mem (hkeys' s hs)
              (hsep s (mem_aliasesFor_mem_keys hal))
        simp only [formatCommandsLoop, if_neg hsub_seen, hget, hcmd, hh,
          Bool.false_eq_true, if_false, List.filterMap_cons, rowFor]
        rw [ih _ hndrest hkeys' hseen₂]

/-- C2 (amended).
Under the provisos that canonical names are distinct and that no alias key is
itself a canonical command name, `format_commands` emits exactly one row per
non-hidden canonical command, in sorted canonical order: the row list equals
`listCommands` filtered through `rowFor`; each non-hidden canonical command
contributes its row `(displayName, short help)` (the display name joins the
lexicographically sorted aliases after the canonical name, or is the bare
canonical name when there are none); every row arises from a non-hidden
canonical command (in particular hidden commands produce no row); and every
canonical command — hidden or not — remains resolvable by `get_command`. -/
theorem formatCommands_spec (g : AliasedGroup)
    (hnodup : (g.commands.map Prod.fst).Nodup)
    (hsep : ∀ a ∈ g.aliases.map Prod.fst, dictGet a g.commands = none) :
    formatCommands g = (listCommands g).filterMap (rowFor g) ∧
      (∀ name cmd, dictGet name g.commands = some cmd → cmd.hidden = false →
        (displayName g name, cmd.shortHelp) ∈ formatCommands g) ∧
      (∀ row ∈ formatCommands g, ∃ name cmd, dictGet name g.commands = some cmd ∧
        cmd.hidden = false ∧ row = (displayName g name, cmd.shortHelp)) ∧
      (∀ name cmd, dictGet name g.commands = some cmd → getCommand g name = some cmd) := by
  have hmain : formatCommands g = (listCommands g).filterMap (rowFor g) := by
    refine formatCommandsLoop_eq_filterMap g hsep (listCommands g) []
      (nodup_sortStrings hnodup) ?_ ?_
    · intro s hs
      exact mem_sortStrings.mp hs
    · intro s _ hs
      cases hs
  refine ⟨hmain, ?_, ?_, ?_⟩
  · intro name cmd hcmd hhid
    rw [hmain]
    refine List.mem_filterMap.mpr ⟨name, mem_sortStrings.mpr (dictGet_eq_some_mem hcmd), ?_⟩
    simp [rowFor, hcmd, hhid]
  · intro row hrow
    rw [hmain] at hrow
    rcases List.mem_filterMap.mp hrow with ⟨name, _, hname⟩
    unfold rowFor at hname
    cases hcmd : dictGet name g.commands with
    | none => rw [hcmd] at hname; cases hname
    | some cmd =>
      rw [hcmd] at hname
      have hname' : (if cmd.hidden then none
          else some (displayName g name, cmd.shortHelp)) = some row := hname
      by_cases hh : cmd.hidden
      · rw [if_pos hh] at hname'; cases hname'
      · rw [if_neg hh] at hname'
        exact ⟨name, cmd, hcmd, by simpa using hh,
          (Option.some.injEq _ _ ▸ hname').symm⟩
  · intro name cmd hcmd
    rw [getCommand_eq_dictGet g hsep (dictGet_eq_some_mem hcmd)]
    exact hcmd

/-- The command registered under canonical name `"test"` in the spec's help
example. -/
def cmdT : Cmd := ⟨3, false, ""⟩

/-- The group of the spec's help example: one command, canonical name
`"test"`, aliases `["t"]`. -/
def gTest : AliasedGroup := buildGroup [⟨cmdT, "test", ["t"]⟩]

/-- C2, witness: the help example group satisfies the provisos, and its single
row has display name `"test (t)"`. -/
theorem formatCommands_spec_witness :
    (formatCommands gTest = (listCommands gTest).filterMap (rowFor gTest) ∧
      (∀ name cmd, dictGet name gTest.commands = some cmd → cmd.hidden = false →
        (displayName gTest name, cmd.shortHelp) ∈ formatCommands gTest) ∧
      (∀ row ∈ formatCommands gTest, ∃ name cmd,
        dictGet name gTest.commands = some cmd ∧
        cmd.hidden = false ∧ row = (displayName gTest name, cmd.shortHelp)) ∧
      (∀ name cmd, dictGet name gTest.commands = some cmd →
        getCommand gTest name = some cmd)) ∧
      (formatCommands gTest).map Prod.fst = ["test (t)"] :=
  ⟨formatCommands_spec gTest (by decide) (by decide), by decide⟩

/-- The shadowed-canonical-name group: `(cmdA, "a", ["b"])` registered first,
then `(cmdB, "b", [])`, so the alias `"b"` coincides with a canonical name. -/
def gShadow : AliasedGroup :=
  buildGroup [⟨cmdA, "a", ["b"]⟩, ⟨cmdB, "b", []⟩]

/-- C2, counterexample to the literal claim.  First: for the spec's own
example group, the rendered help does contain `"test (t)"`, but it then
necessarily also contains the substring `"t ("` (inside `"test (t)"` itself,
from offset 3), so "does not contain `t (`" is impossible as a substring
statement.  Second: when an alias key coincides with a canonical name
(`gShadow`), the non-hidden canonical command `"b"` produces no row at all —
the alias `"b"` was marked `seen` by the earlier row — so "one row per
non-hidden canonical command" also fails without a no-collision proviso. -/
theorem renderHelp_substring_counterexample :
    (strContains (renderHelp gTest) "test (t)" = true ∧
      strContains (renderHelp gTest) "t (" = true) ∧
      (dictGet "b" gShadow.commands = some cmdB ∧ cmdB.hidden = false ∧
        (formatCommands gShadow).map Prod.fst = ["a (b)"]) := by
  decide

/-! ### Shared helpers: membership test, string begins-with, path rendering -/

/-- Python's `x in l` on a list. -/
def listHas {α : Type} [DecidableEq α] (x : α) : List α → Bool
  | [] => false
  | y :: ys => if y = x then true else listHas x ys

theorem listHas_iff_mem {α : Type} [DecidableEq α] (x : α) (l : List α) :
    listHas x l = true ↔ x ∈ l := by
  induction l with
  | nil => simp [listHas]
  | cons y ys ih =>
    by_cases h : y = x
    · subst h
      simp [listHas]
    · simp [listHas, h, ih, Ne.symm h]

theorem listHas_eq_false_iff {α : Type} [DecidableEq α] (x : α) (l : List α) :
    listHas x l = false ↔ x ∉ l := by
  rw [← listHas_iff_mem x l]
  cases listHas x l <;> simp

/-- Python's `s.startswith(pat)`. -/
def strBegins (s pat : String) : Bool := beginsWith pat.data s.data

/-- `str(Path)` for an absolute path. -/
def pathStr (p : Path) : String := "/" ++ String.intercalate "/" p

/-! ### Project discovery: `ProjectCommandLoader.find_project_root` -/

/-- The Python iteration order `[current, *current.parents]`: the path itself,
then its ancestors nearest-first, ending with the filesystem root `[]`
(`pathlib`'s `parents` ends at `/`).  For component lists this is exactly the
reversed list of initial segments. -/
def ancestorChain (p : Path) : List Path := p.inits.reverse

/-- The body of the `for parent in ...` loop's test: `parent / ".samosa"` is a
directory and `parent / ".samosa" / "commands"` is a directory (short-circuit,
like the nested `if`s in the source). -/
def hasSamosaCommands (isDir : Path → Bool) (p : Path) : Bool :=
  isDir (p ++ [".samosa"]) && isDir (p ++ [".samosa", "commands"])

/-- The `for parent in [current, *current.parents]` loop with its early
`return parent`. -/
def findLoop (isDir : Path → Bool) : List Path → Option Path
  | [] => none
  | d :: rest => if hasSamosaCommands isDir d then some d else findLoop isDir rest

/-- `ProjectCommandLoader.find_project_root(start_path)`, over an abstract
directory predicate `isDir` (the filesystem), with `start` already resolved. -/
def findProjectRoot (isDir : Path → Bool) (start : Path) : Option Path :=
  findLoop isDir (ancestorChain start)

theorem findLoop_some (isDir : Path → Bool) (l : List Path) (r : Path)
    (h : findLoop isDir l = some r) :
    ∃ pre post, l = pre ++ r :: post ∧ hasSamosaCommands isDir r = true ∧
      ∀ a ∈ pre, hasSamosaCommands isDir a = false := by
  induction l with
  | nil => cases h
  | cons d rest ih =>
    by_cases hd : hasSamosaCommands isDir d
    · rw [findLoop, if_pos hd] at h
      obtain rfl : d = r := Option.some.injEq _ _ ▸ h
      exact ⟨[], rest, rfl, hd, by simp⟩
    · rw [findLoop, if_neg hd] at h
      obtain ⟨pre, post, heq, hr, hpre⟩ := ih h
      refine ⟨d :: pre, post, by simp [heq], hr, ?_⟩
      intro a ha
      rcases List.mem_cons.mp ha with rfl | ha'
      · exact Bool.not_eq_true _ ▸ (by simpa using hd)
      · exact hpre a ha'

theorem findLoop_none (isDir : Path → Bool) (l : List Path)
    (h : findLoop isDir l = none) :
    ∀ a ∈ l, hasSamosaCommands isDir a = false := by
  induction l with
  | nil => intro a ha; cases ha
  | cons d rest ih =>
    by_cases hd : hasSamosaCommands isDir d
    · rw [findLoop, if_pos hd] at h; cases h
    · rw [findLoop, if_neg hd] at h
      intro a ha
      rcases List.mem_cons.mp ha with rfl | ha'
      · exact Bool.not_eq_true _ ▸ (by simpa using hd)
      · exact ih h a ha'

/-- C3.
Project discovery visits the start path and its ancestors nearest-first, and
returns the first one whose `.samosa` and `.samosa/commands` are both
directories; if no visited directory qualifies it returns `none`. -/
theorem findProjectRoot_spec (isDir : Path → Bool) (start : Path) :
    (∀ r, findProjectRoot isDir start = some r →
      ∃ pre post, ancestorChain start = pre ++ r :: post ∧
        isDir (r ++ [".samosa"]) = true ∧
        isDir (r ++ [".samosa", "commands"]) = true ∧
        ∀ a ∈ pre, hasSamosaCommands isDir a = false) ∧
    (findProjectRoot isDir start = none →
      ∀ a ∈ ancestorChain start, hasSamosaCommands isDir a = false) := by
  constructor
  · intro r h
    obtain ⟨pre, post, heq, hr, hpre⟩ := findLoop_some isDir (ancestorChain start) r h
    rw [hasSamosaCommands, Bool.and_eq_true] at hr
    exact ⟨pre, post, heq, hr.1, hr.2, hpre⟩
  · exact findLoop_none isDir (ancestorChain start)

/-- The directories of the spec's discovery example: a project at `/p` (with
`/p/.samosa/commands`), a nested `/p/sub/deep`, and an unrelated `/other`. -/
def demoDirs : List Path :=
  [["p"], ["p", "sub"], ["p", "sub", "deep"],
   ["p", ".samosa"], ["p", ".samosa", "commands"], ["other"]]

/-- The `is_dir` predicate of the discovery example. -/
def demoIsDir (p : Path) : Bool := listHas p demoDirs

/-- C3, witness: from `/p/sub/deep` discovery returns `/p` (and `/p` is the
first qualifying visited directory); from `/other` it returns `none` and
indeed no visited directory qualifies. -/
theorem findProjectRoot_spec_witness :
    findProjectRoot demoIsDir ["p", "sub", "deep"] = some ["p"] ∧
      (∃ pre post, ancestorChain ["p", "sub", "deep"] = pre ++ ["p"] :: post ∧
        demoIsDir (["p"] ++ [".samosa"]) = true ∧
        demoIsDir (["p"] ++ [".samosa", "commands"]) = true ∧
        ∀ a ∈ pre, hasSamosaCommands demoIsDir a = false) ∧
      findProjectRoot demoIsDir ["other"] = none ∧
      (∀ a ∈ ancestorChain ["other"], hasSamosaCommands demoIsDir a = false) :=
  ⟨by decide,
   (findProjectRoot_spec demoIsDir ["p", "sub", "deep"]).1 ["p"] (by decide),
   by decide,
   (findProjectRoot_spec demoIsDir ["other"]).2 (by decide)⟩

/-! ### Module loading: `ProjectCommandLoader.load_commands` -/

/-- The observable outcome of loading one command-module file:
`noSpec` when `importlib.util.spec_from_file_location` yields no usable spec
(the `if spec and spec.loader` guard fails silently); `failure` when the load
or the module's top-level execution raises (syntax error included), carrying
the exception text; `loaded` with the Click command/group objects found among
the module's attributes, each with its declared `name` attribute (`none` or
`""` fall back to the module's filename stem, like `getattr(...) or
module_name`). -/
inductive ModuleOutcome where
  | noSpec
  | failure (msg : String)
  | loaded (attrs : List (Option String × Cmd))
deriving DecidableEq, Repr

/-- One file in the `.samosa/commands/` directory: its filename stem and its
load outcome. -/
structure PyModule where
  stem : String
  outcome : ModuleOutcome
deriving DecidableEq, Repr

/-- `getattr(attr, "name", None) or module_name`: the key a discovered command
is registered under. -/
def resolveName (stem : String) : Option String → String
  | none => stem
  | some n => if n = "" then stem else n

/-- The warning `click.echo(f"Warning: Failed to load {py_file}: {e}",
err=True)` prints to standard error. -/
def warnFailedLoad (commandsDir : Path) (stem msg : String) : String :=
  "Warning: Failed to load " ++ pathStr (commandsDir ++ [stem ++ ".py"]) ++ ": " ++ msg

/-- The `for py_file in commands_dir.glob("*.py")` loop: skip names starting
with `__`; on failure append a warning to standard error and continue; on
success register every discovered command object in the `commands` dict. -/
def loadModulesLoop (commandsDir : Path) (cmds : List (String × Cmd))
    (warns : List String) : List PyModule → List (String × Cmd) × List String
  | [] => (cmds, warns)
  | m :: rest =>
    if strBegins m.stem "__" then loadModulesLoop commandsDir cmds warns rest
    else
      match m.outcome with
      | .noSpec => loadModulesLoop commandsDir cmds warns rest
      | .failure msg =>
        loadModulesLoop commandsDir cmds
          (warns ++ [warnFailedLoad commandsDir m.stem msg]) rest
      | .loaded attrs =>
        loadModulesLoop commandsDir
          (attrs.foldl (fun d p => dictSet (resolveName m.stem p.1) p.2 d) cmds)
          warns rest

/-- The per-call state `load_commands` leaves behind: the (possibly mutated)
`sys.path`, the returned command mapping, and the warnings written to standard
error. -/
structure LoadState where
  sysPath : List String
  commands : List (String × Cmd)
  warnings : List String
deriving DecidableEq, Repr

/-- `sys.path.remove(x)`: delete the first occurrence. -/
def removeOnce (x : String) : List String → List String
  | [] => []
  | y :: ys => if y = x then ys else y :: removeOnce x ys

/-- `ProjectCommandLoader.load_commands` (after a successful
`discover_project`): insert `str(commands_dir)` at the front of `sys.path`
unless already present, scan the module files, and in the `finally` block
remove `str(commands_dir)` from `sys.path` whenever it is present.  Per-module
exceptions are caught inside the loop, so the scan itself completes on every
input; modules are modelled by their outcomes and do not themselves touch
`sys.path`. -/
def loadCommands (sysPath₀ : List String) (commandsDir : Path)
    (modules : List PyModule) : LoadState :=
  let dirStr := pathStr commandsDir
  let sysPath₁ := if listHas dirStr sysPath₀ then sysPath₀ else dirStr :: sysPath₀
  let scanned := loadModulesLoop commandsDir [] [] modules
  let sysPath₂ := if listHas dirStr sysPath₁ then removeOnce dirStr sysPath₁ else sysPath₁
  ⟨sysPath₂, scanned.1, scanned.2⟩

/-- C4 (amended).
When `sys.path` does not already contain the commands-directory entry,
`load_commands` restores `sys.path` exactly, whatever the module outcomes
(success, per-module failure, or no usable spec), and the temporary entry is
no longer present afterwards. -/
theorem loadCommands_sysPath_restored (sysPath₀ : List String) (commandsDir : Path)
    (modules : List PyModule) (h : pathStr commandsDir ∉ sysPath₀) :
    (loadCommands sysPath₀ commandsDir modules).sysPath = sysPath₀ ∧
      pathStr commandsDir ∉ (loadCommands sysPath₀ commandsDir modules).sysPath := by
  have hc : listHas (pathStr commandsDir) sysPath₀ = false :=
    (listHas_eq_false_iff _ _).mpr h
  have hmain : (loadCommands sysPath₀ commandsDir modules).sysPath = sysPath₀ := by
    simp [loadCommands, hc, listHas, removeOnce]
  refine ⟨hmain, ?_⟩
  rw [hmain]
  exact h

/-- C4, witness: a fresh `sys.path` not containing the entry, one failing
module in the directory; `sys.path` comes back unchanged. -/
theorem loadCommands_sysPath_restored_witness :
    pathStr ["cmds"] ∉ ["/usr/lib"] ∧
      (loadCommands ["/usr/lib"] ["cmds"] [⟨"bad", .failure "boom"⟩]).sysPath =
        ["/usr/lib"] ∧
      pathStr ["cmds"] ∉
        (loadCommands ["/usr/lib"] ["cmds"] [⟨"bad", .failure "boom"⟩]).sysPath := by
  have h : pathStr ["cmds"] ∉ ["/usr/lib"] := by decide
  have hr := loadCommands_sysPath_restored ["/usr/lib"] ["cmds"]
    [⟨"bad", .failure "boom"⟩] h
  exact ⟨h, hr.1, hr.2⟩

/-- C4, counterexample to the literal claim: when the initial `sys.path`
already contains the commands-directory entry, `load_commands` skips the
insert (the `if str(commands_dir) not in sys.path` guard) but the `finally`
block still removes the entry, so `sys.path` is permanently mutated. -/
theorem loadCommands_sysPath_mutated_counterexample :
    (loadCommands [pathStr ["cmds"]] ["cmds"] []).sysPath = [] ∧
      (loadCommands [pathStr ["cmds"]] ["cmds"] []).sysPath ≠ [pathStr ["cmds"]] := by
  decide

/-- Does this module's load raise? -/
def moduleFails (m : PyModule) : Bool :=
  match m.outcome with
  | .failure _ => true
  | _ => false

/-- The warning (if any) one scanned file contributes to standard error. -/
def warnOf (commandsDir : Path) (m : PyModule) : Option String :=
  match m.outcome with
  | .failure msg =>
    if strBegins m.stem "__" then none
    else some (warnFailedLoad commandsDir m.stem msg)
  | _ => none

theorem loadModulesLoop_commands_warns_irrel (commandsDir : Path)
    (ms : List PyModule) :
    ∀ cmds warns warns',
      (loadModulesLoop commandsDir cmds warns ms).1 =
        (loadModulesLoop commandsDir cmds warns' ms).1 := by
  induction ms with
  | nil => intro cmds warns warns'; rfl
  | cons m rest ih =>
    intro cmds warns warns'
    by_cases hsk : strBegins m.stem "__"
    · simp only [loadModulesLoop, hsk, if_true]
      exact ih cmds warns warns'
    · cases hout : m.outcome with
      | noSpec =>
        simp only [loadModulesLoop, hsk, Bool.false_eq_true, if_false, hout]
        exact ih cmds warns warns'
      | failure msg =>
        simp only [loadModulesLoop, hsk, Bool.false_eq_true, if_false, hout]
        exact ih cmds _ _
      | loaded attrs =>
        simp only [loadModulesLoop, hsk, Bool.false_eq_true, if_false, hout]
        exact ih _ warns warns'

theorem loadModulesLoop_commands_skip_failures (commandsDir : Path)
    (ms : List PyModule) :
    ∀ cmds warns,
      (loadModulesLoop commandsDir cmds warns ms).1 =
        (loadModulesLoop commandsDir cmds warns
          (ms.filter (fun m => !moduleFails m))).1 := by
  induction ms with
  | nil => intro cmds warns; rfl
  | cons m rest ih =>
    intro cmds warns
    by_cases hsk : strBegins m.stem "__"
    · cases hout : m.outcome with
      | noSpec =>
        simp only [loadModulesLoop, hsk, if_true, List.filter_cons, moduleFails, hout]
        exact ih cmds warns
      | failure msg =>
        simp only [loadModulesLoop, hsk, if_true, List.filter_cons, moduleFails, hout]
        exact ih cmds warns
      | loaded attrs =>
        simp only [loadModulesLoop, hsk, if_true, List.filter_cons, moduleFails, hout]
        exact ih cmds warns
    · cases hout : m.outcome with
      | noSpec =>
        simp only [loadModulesLoop, hsk, Bool.false_eq_true, if_false,
          List.filter_cons, moduleFails, hout]
        exact ih cmds warns
      | failure msg =>
        simp only [loadModulesLoop, hsk, Bool.false_eq_true, if_false,
          List.filter_cons, moduleFails, hout]
        exact (loadModulesLoop_commands_warns_irrel commandsDir rest cmds _ warns).trans
          (ih cmds warns)
      | loaded attrs =>
        simp only [loadModulesLoop, hsk, Bool.false_eq_true, if_false,
          List.filter_cons, moduleFails, hout]
        exact ih _ warns

theorem loadModulesLoop_warnings (commandsDir : Path) (ms : List PyModule) :
    ∀ cmds warns,
      (loadModulesLoop commandsDir cmds warns ms).2 =
        warns ++ ms.filterMap (warnOf commandsDir) := by
  induction ms with
  | nil => intro cmds warns; simp [loadModulesLoop]
  | cons m rest ih =>
    intro cmds warns
    by_cases hsk : strBegins m.stem "__"
    · cases hout : m.outcome with
      | noSpec =>
        simp only [loadModulesLoop, hsk, if_true, List.filterMap_cons, warnOf, hout]
        exact ih cmds warns
      | failure msg =>
        simp only [loadModulesLoop, hsk, if_true, List.filterMap_cons, warnOf, hout]
        exact ih cmds warns
      | loaded attrs =>
        simp only [loadModulesLoop, hsk, if_true, List.filterMap_cons, warnOf, hout]
        exact ih cmds warns
    · cases hout : m.outcome with
      | noSpec =>
        simp only [loadModulesLoop, hsk, Bool.false_eq_true, if_false,
          List.filterMap_cons, warnOf, hout]
        exact ih cmds warns
      | failure msg =>
        simp only [loadModulesLoop, hsk, Bool.false_eq_true, if_false,
          List.filterMap_cons, warnOf, hout]
        rw [ih cmds _]
        simp
      | loaded attrs =>
        simp only [loadModulesLoop, hsk, Bool.false_eq_true, if_false,
          List.filterMap_cons, warnOf, hout]
        exact ih _ warns

/-- C5.
A module whose load raises is skipped: the returned command mapping is exactly
the one obtained from the non-failing modules alone (so commands contributed
by the valid modules are unaffected by the failures), and standard error
receives exactly one `Warning: Failed to load ...` line per failing
(non-`__`) file.  `load_commands` is a total function of the module outcomes:
it returns on every input instead of raising. -/
theorem loadCommands_isolates_failures (sysPath₀ : List String)
    (commandsDir : Path) (ms : List PyModule) :
    (loadCommands sysPath₀ commandsDir ms).commands =
      (loadCommands sysPath₀ commandsDir
        (ms.filter (fun m => !moduleFails m))).commands ∧
    (loadCommands sysPath₀ commandsDir ms).warnings =
      ms.filterMap (warnOf commandsDir) := by
  constructor
  · simpa [loadCommands] using
      loadModulesLoop_commands_skip_failures commandsDir ms [] []
  · simpa [loadCommands] using loadModulesLoop_warnings commandsDir ms [] []

/-! ### Configuration loading: `ProjectContext.config` -/

/-- The outcome of the `try` body of `ProjectContext.config`:
`importError` when `import yaml` raises `ImportError`; `raiseError` when
opening or `yaml.safe_load` raises any other exception (malformed document);
`parsed v` when `yaml.safe_load` returns `v` (`none` models YAML `None` for an
empty file, `some d` a parsed mapping). -/
inductive YamlLoadOutcome where
  | importError
  | raiseError (msg : String)
  | parsed (v : Option (List (String × String)))
deriving DecidableEq, Repr

/-- `ProjectContext.config`: `self._config = {}` first; only when the file
exists and `yaml.safe_load` succeeds with a non-`None` value is the parsed
mapping taken (`yaml.safe_load(f) or {}`); `ImportError` and every other
exception are swallowed, leaving the empty mapping.  The function is total —
the property never raises. -/
def configLoad (fileExists : Bool) (outcome : YamlLoadOutcome) :
    List (String × String) :=
  if fileExists then
    match outcome with
    | .importError => []
    | .raiseError _ => []
    | .parsed none => []
    | .parsed (some d) => d
  else []

/-- C7.
Reading the config never propagates an error: an absent file, an unavailable
parser, a parse failure, or an empty document each yield the empty mapping,
and in every remaining case the parsed mapping is returned — `configLoad` is a
total function into mappings, with no error channel. -/
theorem configLoad_never_raises (fileExists : Bool) (outcome : YamlLoadOutcome) :
    (fileExists = false → configLoad fileExists outcome = []) ∧
    (outcome = .importError → configLoad fileExists outcome = []) ∧
    (∀ msg, outcome = .raiseError msg → configLoad fileExists outcome = []) ∧
    (outcome = .parsed none → configLoad fileExists outcome = []) ∧
    (∀ d, fileExists = true → outcome = .parsed (some d) →
      configLoad fileExists outcome = d) := by
  refine ⟨?_, ?_, ?_, ?_, ?_⟩
  · intro h; subst h; rfl
  · intro h; subst h; cases fileExists <;> rfl
  · intro msg h; subst h; cases fileExists <;> rfl
  · intro h; subst h; cases fileExists <;> rfl
  · intro d hf ho; subst hf; subst ho; rfl

/-- C7, witness: a present but malformed config file yields the empty
mapping. -/
theorem configLoad_never_raises_witness :
    configLoad true (.raiseError "could not determine a constructor") = [] :=
  (configLoad_never_raises true _).2.2.1 "could not determine a constructor" rfl

/-! ### Backup deletion safety: `backup_delete` in `--mode all` -/

/-- One observable side effect of the `--mode all` deletion loop in
`samosa.tasks.git.backup_delete`: either the irreversible
`ctx.run(f"git branch -D {backup}")`, or the
`❌ SAFETY ABORT: Skipping non-backup branch ...` message followed by
`continue`. -/
inductive GitAction where
  | deleteBranch (name : String)
  | safetyAbort (name : String)
deriving DecidableEq, Repr

/-- The `for backup in local_backups` loop after the user confirms: the final
safety check `backup.startswith("backup/")` precedes the deletion command; a
candidate failing it is aborted and skipped. -/
def backupDeleteLoop : List String → List GitAction
  | [] => []
  | b :: rest =>
    if strBegins b "backup/" then GitAction.deleteBranch b :: backupDeleteLoop rest
    else GitAction.safetyAbort b :: backupDeleteLoop rest

/-- `b.strip().lstrip('* ')` on one `git branch` output line: strip ASCII
whitespace at both ends, then leading `*` and space characters. -/
def cleanBranch (b : String) : String :=
  ⟨(((b.data.dropWhile (fun c => c.toNat ≤ 32)).reverse.dropWhile
      (fun c => c.toNat ≤ 32)).reverse).dropWhile (fun c => c == '*' || c == ' ')⟩

/-- The candidate set `local_backups` built from the `git branch` listing:
clean each line, keep it when it contains `backup/{current_branch}-` and
starts with `backup/`. -/
def collectLocalBackups (currentBranch : String) (branches : List String) :
    List String :=
  (branches.map cleanBranch).filter
    (fun c => strContains c ("backup/" ++ currentBranch ++ "-") &&
      strBegins c "backup/")

/-- C8.
In the delete-all-backups loop, a deletion command is issued for a candidate
only if its name starts with `backup/`; any candidate without the required
naming prefix — even one that entered the candidate set by an upstream bug —
is refused with the explicit safety-abort action instead of being deleted. -/
theorem backupDeleteLoop_safety (candidates : List String) :
    (∀ n, GitAction.deleteBranch n ∈ backupDeleteLoop candidates →
      strBegins n "backup/" = true ∧ n ∈ candidates) ∧
    (∀ c ∈ candidates, strBegins c "backup/" = false →
      GitAction.safetyAbort c ∈ backupDeleteLoop candidates ∧
      GitAction.deleteBranch c ∉ backupDeleteLoop candidates) := by
  induction candidates with
  | nil =>
    refine ⟨?_, ?_⟩
    · intro n hn; cases hn
    · intro c hc; cases hc
  | cons b rest ih =>
    by_cases hb : strBegins b "backup/"
    · refine ⟨?_, ?_⟩
      · intro n hn
        rw [backupDeleteLoop, if_pos hb] at hn
        rcases List.mem_cons.mp hn with heq | hn'
        · obtain rfl : n = b := by injection heq
          exact ⟨hb, by simp⟩
        · obtain ⟨h1, h2⟩ := ih.1 n hn'
          exact ⟨h1, by simp [h2]⟩
      · intro c hc hcb
        rcases List.mem_cons.mp hc with rfl | hc'
        · rw [hb] at hcb; cases hcb
        · obtain ⟨h1, h2⟩ := ih.2 c hc' hcb
          rw [backupDeleteLoop, if_pos hb]
          refine ⟨by simp [h1], ?_⟩
          intro hmem
          rcases List.mem_cons.mp hmem with heq | hmem'
          · obtain rfl : c = b := by injection heq
            rw [hb] at hcb; cases hcb
          · exact h2 hmem'
    · refine ⟨?_, ?_⟩
      · intro n hn
        rw [backupDeleteLoop, if_neg hb] at hn
        rcases List.mem_cons.mp hn with heq | hn'
        · cases heq
        · obtain ⟨h1, h2⟩ := ih.1 n hn'
          exact ⟨h1, by simp [h2]⟩
      · intro c hc hcb
        rw [backupDeleteLoop, if_neg hb]
        rcases List.mem_cons.mp hc with rfl | hc'
        · refine ⟨by simp, ?_⟩
          intro hmem
          rcases List.mem_cons.mp hmem with heq | hmem'
          · cases heq
          · rw [(ih.1 c hmem').1] at hcb; cases hcb
        · obtain ⟨h1, h2⟩ := ih.2 c hc' hcb
          refine ⟨by simp [h1], ?_⟩
          intro hmem
          rcases List.mem_cons.mp hmem with heq | hmem'
          · cases heq
          · exact h2 hmem'

/-- C8, witness: with the candidate set `["backup/main-1", "rogue"]` — the
second entry present only through a hypothetical upstream bug — the loop
aborts on `"rogue"` and never issues a deletion for it. -/
theorem backupDeleteLoop_safety_witness :
    GitAction.safetyAbort "rogue" ∈ backupDeleteLoop ["backup/main-1", "rogue"] ∧
      GitAction.deleteBranch "rogue" ∉ backupDeleteLoop ["backup/main-1", "rogue"] :=
  (backupDeleteLoop_safety ["backup/main-1", "rogue"]).2 "rogue"
    (by decide) (by decide)

/-! ### Bootstrap: the `init` command of the no-project `local` group

The two documents `init` writes are embedded verbatim (double quotes appear
as the escape `\x22`). -/

/-- The placeholder command module `example.py` written by `init`
(`example_command` in the source). -/
def exampleCommandText : String :=
  "\x22\x22\x22Example project-specific commands.\x22\x22\x22\n"
    ++ "import click\n"
    ++ "from invoke import Context\n"
    ++ "\n"
    ++ "# project_context is injected by the samosa plugin system\n"
    ++ "project_context = None  # type: ignore\n"
    ++ "\n"
    ++ "\n"
    ++ "@click.group()\n"
    ++ "def deploy():\n"
    ++ "    \x22\x22\x22Deployment commands for this project.\x22\x22\x22\n"
    ++ "    pass\n"
    ++ "\n"
    ++ "\n"
    ++ "@deploy.command()\n"
    ++ "@click.argument(\x22environment\x22, type=click.Choice([\x22dev\x22, \x22staging\x22, \x22prod\x22]))\n"
    ++ "def app(environment):\n"
    ++ "    \x22\x22\x22Deploy application to specified environment.\x22\x22\x22\n"
    ++ "    # Access project context\n"
    ++ "    ctx = project_context.invoke_ctx\n"
    ++ "\n"
    ++ "    click.echo(f\x22🚀 Deploying to {environment}...\x22)\n"
    ++ "    click.echo(f\x22📁 Project root: {project_context.project_root}\x22)\n"
    ++ "\n"
    ++ "    # Example: run deployment commands\n"
    ++ "    # ctx.run(f\x22docker build -t myapp:{environment} .\x22)\n"
    ++ "    # ctx.run(f\x22kubectl apply -f k8s/{environment}/\x22)\n"
    ++ "\n"
    ++ "    click.echo(f\x22✅ Deployed to {environment}!\x22)\n"
    ++ "\n"
    ++ "\n"
    ++ "@click.command()\n"
    ++ "def test():\n"
    ++ "    \x22\x22\x22Run project-specific tests.\x22\x22\x22\n"
    ++ "    ctx = project_context.invoke_ctx\n"
    ++ "\n"
    ++ "    click.echo(\x22🧪 Running project tests...\x22)\n"
    ++ "    # ctx.run(\x22python -m pytest tests/\x22)\n"
    ++ "    click.echo(\x22✅ Tests completed!\x22)\n"
    ++ "\n"
    ++ "\n"
    ++ "@click.command()\n"
    ++ "def setup():\n"
    ++ "    \x22\x22\x22Setup project development environment.\x22\x22\x22\n"
    ++ "    ctx = project_context.invoke_ctx\n"
    ++ "\n"
    ++ "    click.echo(\x22🔧 Setting up development environment...\x22)\n"
    ++ "    # ctx.run(\x22pip install -r requirements.txt\x22)\n"
    ++ "    # ctx.run(\x22pre-commit install\x22)\n"
    ++ "    click.echo(\x22✅ Development environment ready!\x22)\n"

/-- The default configuration document `config.yaml` written by `init`
(`config_content` in the source) — a non-empty sample document. -/
def configYamlText : String :=
  "# Project-specific configuration\n"
    ++ "project:\n"
    ++ "  name: \x22My Project\x22\n"
    ++ "  version: \x221.0.0\x22\n"
    ++ "\n"
    ++ "environments:\n"
    ++ "  dev:\n"
    ++ "    url: \x22http://localhost:3000\x22\n"
    ++ "  staging:\n"
    ++ "    url: \x22https://staging.myproject.com\x22\n"
    ++ "  prod:\n"
    ++ "    url: \x22https://myproject.com\x22\n"

/-- A filesystem, as the directories and the files (path ↦ content) that
exist. -/
structure FS where
  dirs : List Path := []
  files : List (Path × String) := []
deriving DecidableEq, Repr

/-- `Path.exists()`: the path is a directory or a file. -/
def pathExists (fs : FS) (p : Path) : Bool :=
  listHas p fs.dirs || listHas p (fs.files.map Prod.fst)

/-- The `init` command body: if `.samosa` exists, report and change nothing;
else `commands_dir.mkdir(parents=True)` (creating `.samosa` and
`.samosa/commands`), write the empty `__init__.py`, the placeholder
`example.py`, and the sample `config.yaml`, then print the summary.  Returns
the new filesystem and the lines echoed. -/
def initCommand (fs : FS) (cwd : Path) : FS × List String :=
  let samosaDir := cwd ++ [".samosa"]
  let commandsDir := samosaDir ++ ["commands"]
  if pathExists fs samosaDir then
    (fs, ["✅ .samosa directory already exists at: " ++ pathStr samosaDir])
  else
    let fs₁ : FS := { fs with dirs := fs.dirs ++ [samosaDir, commandsDir] }
    let fs₂ : FS := { fs₁ with
      files := dictSet (commandsDir ++ ["__init__.py"]) "" fs₁.files }
    let fs₃ : FS := { fs₂ with
      files := dictSet (commandsDir ++ ["example.py"]) exampleCommandText fs₂.files }
    let fs₄ : FS := { fs₃ with
      files := dictSet (samosaDir ++ ["config.yaml"]) configYamlText fs₃.files }
    (fs₄,
      ["🎉 Initialized .samosa directory at: " ++ pathStr samosaDir,
       "📁 Example commands created in: " ++ pathStr commandsDir,
       "⚙️  Configuration file: " ++ pathStr (samosaDir ++ ["config.yaml"]),
       "\n✨ Try: samosa local --help"])

theorem append_ne_append_of_ne {α : Type} (l : List α) {a b : List α}
    (h : a ≠ b) : l ++ a ≠ l ++ b := by
  intro he
  exact h (List.append_cancel_left he)

/-- C6 (amended).
Run where no `.samosa` exists, `init` creates in one call the
`.samosa/commands` directory, the empty `__init__.py`, the placeholder
command module `example.py`, and the default sample (non-empty) configuration
document `config.yaml`; run where `.samosa` already exists, it makes no
filesystem change and only reports "already exists". -/
theorem initCommand_spec (fs : FS) (cwd : Path) :
    (pathExists fs (cwd ++ [".samosa"]) = false →
      listHas (cwd ++ [".samosa", "commands"]) (initCommand fs cwd).1.dirs = true ∧
      dictGet (cwd ++ [".samosa", "commands", "__init__.py"])
        (initCommand fs cwd).1.files = some "" ∧
      dictGet (cwd ++ [".samosa", "commands", "example.py"])
        (initCommand fs cwd).1.files = some exampleCommandText ∧
      dictGet (cwd ++ [".samosa", "config.yaml"])
        (initCommand fs cwd).1.files = some configYamlText) ∧
    (pathExists fs (cwd ++ [".samosa"]) = true →
      initCommand fs cwd =
        (fs, ["✅ .samosa directory already exists at: " ++
          pathStr (cwd ++ [".samosa"])])) := by
  constructor
  · intro h
    have hne₁ : cwd ++ [".samosa", "config.yaml"] ≠
        cwd ++ [".samosa", "commands", "example.py"] :=
      append_ne_append_of_ne cwd (by simp)
    have hne₂ : cwd ++ [".samosa", "config.yaml"] ≠
        cwd ++ [".samosa", "commands", "__init__.py"] :=
      append_ne_append_of_ne cwd (by simp)
    have hne₃ : cwd ++ [".samosa", "commands", "example.py"] ≠
        cwd ++ [".samosa", "commands", "__init__.py"] :=
      append_ne_append_of_ne cwd (by simp)
    refine ⟨?_, ?_, ?_, ?_⟩
    · rw [listHas_iff_mem]
      simp [initCommand, h]
    · simp only [initCommand, h, Bool.false_eq_true, if_false]
      rw [show (cwd ++ [".samosa"]) ++ ["config.yaml"] =
          cwd ++ [".samosa", "config.yaml"] by simp,
        show ((cwd ++ [".samosa"]) ++ ["commands"]) ++ ["example.py"] =
          cwd ++ [".samosa", "commands", "example.py"] by simp,
        show ((cwd ++ [".samosa"]) ++ ["commands"]) ++ ["__init__.py"] =
          cwd ++ [".samosa", "commands", "__init__.py"] by simp]
      rw [dictGet_dictSet_ne _ _ (Ne.symm hne₂), dictGet_dictSet_ne _ _ (Ne.symm hne₃),
        dictGet_dictSet_self]
    · simp only [initCommand, h, Bool.false_eq_true, if_false]
      rw [show (cwd ++ [".samosa"]) ++ ["config.yaml"] =
          cwd ++ [".samosa", "config.yaml"] by simp,
        show ((cwd ++ [".samosa"]) ++ ["commands"]) ++ ["example.py"] =
          cwd ++ [".samosa", "commands", "example.py"] by simp]
      rw [dictGet_dictSet_ne _ _ (Ne.symm hne₁), dictGet_dictSet_self]
    · simp only [initCommand, h, Bool.false_eq_true, if_false]
      rw [show (cwd ++ [".samosa"]) ++ ["config.yaml"] =
          cwd ++ [".samosa", "config.yaml"] by simp]
      rw [dictGet_dictSet_self]
  · intro h
    simp [initCommand, h]

/-- C6, witness: on an empty filesystem `init` creates the three files and
the commands directory under `/w/.samosa`; on a filesystem already holding
`/w/.samosa` it changes nothing and reports "already exists". -/
theorem initCommand_spec_witness :
    (listHas (["w"] ++ [".samosa", "commands"])
        (initCommand ⟨[], []⟩ ["w"]).1.dirs = true ∧
      dictGet (["w"] ++ [".samosa", "commands", "__init__.py"])
        (initCommand ⟨[], []⟩ ["w"]).1.files = some "" ∧
      dictGet (["w"] ++ [".samosa", "commands", "example.py"])
        (initCommand ⟨[], []⟩ ["w"]).1.files = some exampleCommandText ∧
      dictGet (["w"] ++ [".samosa", "config.yaml"])
        (initCommand ⟨[], []⟩ ["w"]).1.files = some configYamlText) ∧
      initCommand ⟨[["w", ".samosa"]], []⟩ ["w"] =
        (⟨[["w", ".samosa"]], []⟩, ["✅ .samosa directory already exists at: " ++
          pathStr (["w"] ++ [".samosa"])]) :=
  ⟨(initCommand_spec ⟨[], []⟩ ["w"]).1 (by decide),
   (initCommand_spec ⟨[["w", ".samosa"]], []⟩ ["w"]).2 (by decide)⟩

set_option maxRecDepth 8192 in
/-- C6, counterexample to the literal claim: the configuration document
created by `init` is not empty — it is the sample document with `project` and
`environments` sections. -/
theorem initCommand_config_nonempty_counterexample :
    dictGet [".samosa", "config.yaml"] (initCommand ⟨[], []⟩ []).1.files =
        some configYamlText ∧
      configYamlText ≠ "" := by
  decide

/-! ### `ProjectCommandLoader.create_local_group` -/

/-- The Click command object of the fallback `init` subcommand (its name and
short help come from the decorated function). -/
def initCmdNode : Cmd := ⟨4, false, "Initialize .samosa directory in current project."⟩

/-- The Click command object of the fallback `info` subcommand. -/
def infoCmdNode : Cmd := ⟨5, false, "Show project information."⟩

/-- `ProjectCommandLoader.create_local_group`: with no project, a group with
the single `init` command; with a project whose discovered command mapping is
empty, a group with the single `info` command; otherwise a group with each
discovered command added under its mapping key
(`local.add_command(command, name=name)`). -/
def createLocalGroup (projectFound : Bool) (discovered : List (String × Cmd)) :
    AliasedGroup :=
  if projectFound = false then addCommand emptyGroup initCmdNode "init"
  else if discovered = [] then addCommand emptyGroup infoCmdNode "info"
  else discovered.foldl (fun g p => addCommand g p.2 p.1) emptyGroup

theorem commands_foldl_addCommand (ds : List (String × Cmd)) :
    ∀ acc : AliasedGroup,
      (ds.foldl (fun g p => addCommand g p.2 p.1) acc).commands =
        ds.foldl (fun d p => dictSet p.1 p.2 d) acc.commands := by
  induction ds with
  | nil => intro acc; rfl
  | cons p rest ih =>
    intro acc
    rw [List.foldl_cons, List.foldl_cons, ih]
    rfl

theorem dictGet_foldl_dictSet_ne_none (n : String) (ds : List (String × Cmd)) :
    ∀ acc : List (String × Cmd),
      dictGet n (ds.foldl (fun d p => dictSet p.1 p.2 d) acc) ≠ none ↔
        n ∈ ds.map Prod.fst ∨ dictGet n acc ≠ none := by
  induction ds with
  | nil => intro acc; simp
  | cons p rest ih =>
    intro acc
    rw [List.foldl_cons, ih]
    by_cases h : n = p.1
    · subst h
      simp [dictGet_dictSet_self]
    · rw [dictGet_dictSet_ne _ _ h]
      simp [h]

/-- C10.
With a project discovered: an empty discovered mapping yields a group whose
commands dict is exactly the single `info` command; a non-empty mapping
yields a group whose command keys are exactly the discovered names (each
discovered command is added under its name, and nothing else — in particular
no `info` command — is added). -/
theorem createLocalGroup_spec (discovered : List (String × Cmd)) :
    (discovered = [] →
      (createLocalGroup true discovered).commands = [("info", infoCmdNode)]) ∧
    (discovered ≠ [] →
      (∀ p ∈ discovered,
        dictGet p.1 (createLocalGroup true discovered).commands ≠ none) ∧
      (∀ n, dictGet n (createLocalGroup true discovered).commands ≠ none →
        n ∈ discovered.map Prod.fst)) := by
  constructor
  · intro h
    subst h
    rfl
  · intro h
    have hne : (discovered = []) = False := eq_false h
    have hcmds : (createLocalGroup true discovered).commands =
        discovered.foldl (fun d p => dictSet p.1 p.2 d) [] := by
      simp only [createLocalGroup, hne, Bool.true_eq_false, if_false, if_neg h]
      exact commands_foldl_addCommand discovered emptyGroup
    constructor
    · intro p hp
      rw [hcmds, dictGet_foldl_dictSet_ne_none]
      exact Or.inl (List.mem_map.mpr ⟨p, hp, rfl⟩)
    · intro n hn
      rw [hcmds, dictGet_foldl_dictSet_ne_none] at hn
      rcases hn with hn | hn
      · exact hn
      · exact absurd rfl hn

/-- C10, witness: the empty mapping yields exactly the `info` command; the
mapping `{"x" ↦ cmdA}` yields a group where `"x"` resolves and `"info"` is
absent. -/
theorem createLocalGroup_spec_witness :
    (createLocalGroup true []).commands = [("info", infoCmdNode)] ∧
      dictGet "x" (createLocalGroup true [("x", cmdA)]).commands ≠ none :=
  ⟨(createLocalGroup_spec []).1 rfl,
   ((createLocalGroup_spec [("x", cmdA)]).2 (by decide)).1 ("x", cmdA) (by decide)⟩

/-- C9.
Alias substitution happens before canonical lookup in `get_command`: a token
that is simultaneously an alias key (mapping to `b`) and the canonical name of
another registered command resolves to `b`'s node, and the shadowed command is
unreachable by that token. -/
theorem getCommand_alias_shadows_canonical (g : AliasedGroup) (t b : String)
    (cA cB : Cmd) (halias : dictGet t g.aliases = some b)
    (hA : dictGet t g.commands = some cA) (hB : dictGet b g.commands = some cB) :
    getCommand g t = some cB ∧ (cA ≠ cB → getCommand g t ≠ some cA) := by
  have hres : getCommand g t = some cB := by
    unfold getCommand
    rw [halias]
    exact hB
  refine ⟨hres, fun hne hcontra => hne ?_⟩
  rw [hres] at hcontra
  exact (Option.some.injEq _ _ ▸ hcontra).symm

/-- C9, witness: in the group with commands `a ↦ cmdA`, `b ↦ cmdB` and alias
`a ↦ b`, the token `"a"` resolves to `cmdB`, not to the registered command
`cmdA`. -/
theorem getCommand_alias_shadows_canonical_witness :
    getCommand ⟨[("a", cmdA), ("b", cmdB)], [("a", "b")]⟩ "a" = some cmdB ∧
      (cmdA ≠ cmdB →
        getCommand ⟨[("a", cmdA), ("b", cmdB)], [("a", "b")]⟩ "a" ≠ some cmdA) :=
  getCommand_alias_shadows_canonical ⟨[("a", cmdA), ("b", cmdB)], [("a", "b")]⟩
    "a" "b" cmdA cmdB (by decide) (by decide) (by decide)

end Samosa
